import Mathlib

/-!
Verification development for the `motd` "image of the day" server
(`main.go`).  The Go source is shallowly embedded below:

* SHA-256 (Go `crypto/sha256`, used by `GetImageForDate`) is embedded
  over `Nat` with explicit reduction modulo `2 ^ 32`;
* Go `time.Time` is embedded as an absolute instant in nanoseconds since
  the Unix epoch together with a zone offset (`GoTime`); `After`/`Before`
  compare instants, `Format "2006-01-02"` formats the civil date in the
  value's zone;
* the pure selection logic (`NewImageMapper`, `GetImageForDate`) is a
  direct transcription of the Go functions;
* the refresh procedure `updateImageForToday` is embedded as a state
  transition on the asset directory plus an event trace recording the
  order of its file-system effects; its fallible external calls
  (directory scan, file copy) are supplied by a `RefreshEnv` oracle;
* the directory scan `getImageList` (`filepath.Walk`) is embedded over a
  tree of directory entries.
-/

set_option maxRecDepth 8000

/-! ## 32-bit words as `Nat` -/

/-- Truncate to a 32-bit word. -/
def w32 (n : Nat) : Nat := n % 4294967296

/-- Right-rotation of a 32-bit word by `n` bits. -/
def rotr32 (n x : Nat) : Nat := w32 (x / 2 ^ n + x % 2 ^ n * 2 ^ (32 - n))

/-- Bitwise complement of a 32-bit word. -/
def not32 (x : Nat) : Nat := x ^^^ 4294967295

/-! ## SHA-256 (Go `crypto/sha256` on byte lists; bytes are `Nat < 256`) -/

def shaCh (x y z : Nat) : Nat := (x &&& y) ^^^ (not32 x &&& z)

def shaMaj (x y z : Nat) : Nat := (x &&& y) ^^^ (x &&& z) ^^^ (y &&& z)

def bigSigma0 (x : Nat) : Nat := rotr32 2 x ^^^ rotr32 13 x ^^^ rotr32 22 x

def bigSigma1 (x : Nat) : Nat := rotr32 6 x ^^^ rotr32 11 x ^^^ rotr32 25 x

def smallSigma0 (x : Nat) : Nat := rotr32 7 x ^^^ rotr32 18 x ^^^ x / 2 ^ 3

def smallSigma1 (x : Nat) : Nat := rotr32 17 x ^^^ rotr32 19 x ^^^ x / 2 ^ 10

/-- The SHA-256 round constants (FIPS 180-4, in decimal). -/
def shaK : List Nat :=
  [1116352408, 1899447441, 3049323471, 3921009573, 961987163, 1508970993,
   2453635748, 2870763221, 3624381080, 310598401, 607225278, 1426881987,
   1925078388, 2162078206, 2614888103, 3248222580, 3835390401, 4022224774,
   264347078, 604807628, 770255983, 1249150122, 1555081692, 1996064986,
   2554220882, 2821834349, 2952996808, 3210313671, 3336571891, 3584528711,
   113926993, 338241895, 666307205, 773529912, 1294757372, 1396182291,
   1695183700, 1986661051, 2177026350, 2456956037, 2730485921, 2820302411,
   3259730800, 3345764771, 3516065817, 3600352804, 4094571909, 275423344,
   430227734, 506948616, 659060556, 883997877, 958139571, 1322822218,
   1537002063, 1747873779, 1955562222, 2024104815, 2227730452, 2361852424,
   2428436474, 2756734187, 3204031479, 3329325298]

/-- The SHA-256 initial hash value (FIPS 180-4, in decimal). -/
def shaH0 : List Nat :=
  [1779033703, 3144134277, 1013904242, 2773480762,
   1359893119, 2600822924, 528734635, 1541459225]

/-- Big-endian 8-byte encoding of a (64-bit) natural number. -/
def be64 (n : Nat) : List Nat :=
  [n / 2 ^ 56 % 256, n / 2 ^ 48 % 256, n / 2 ^ 40 % 256, n / 2 ^ 32 % 256,
   n / 2 ^ 24 % 256, n / 2 ^ 16 % 256, n / 2 ^ 8 % 256, n % 256]

/-- Big-endian 4-byte encoding of a 32-bit word. -/
def be32 (n : Nat) : List Nat := [n / 2 ^ 24 % 256, n / 2 ^ 16 % 256, n / 2 ^ 8 % 256, n % 256]

/-- SHA-256 message padding: append `0x80`, zeros to 56 mod 64, then the
bit length as 8 big-endian bytes. -/
def shaPad (msg : List Nat) : List Nat :=
  msg ++ [0x80] ++ List.replicate ((119 - msg.length % 64) % 64) 0 ++ be64 (8 * msg.length)

/-- Split a byte list into 64-byte blocks.  The fuel argument (any bound
on the number of blocks, decreased structurally so that the definition
evaluates inside the kernel) is instantiated with the list length. -/
def chunks64Aux : Nat → List Nat → List (List Nat)
  | 0, _ => []
  | _ + 1, [] => []
  | fuel + 1, a :: rest => ((a :: rest).take 64) :: chunks64Aux fuel ((a :: rest).drop 64)

/-- Split a byte list into 64-byte blocks. -/
def chunks64 (l : List Nat) : List (List Nat) := chunks64Aux l.length l

/-- Group bytes into big-endian 32-bit words. -/
def toWords : List Nat → List Nat
  | b0 :: b1 :: b2 :: b3 :: rest => (b0 * 2 ^ 24 + b1 * 2 ^ 16 + b2 * 2 ^ 8 + b3) :: toWords rest
  | _ => []

/-- Extend the 16 block words to the 64-entry message schedule. -/
def shaSchedule (block : List Nat) : Array Nat :=
  (List.range 48).foldl
    (fun w i =>
      w.push (w32 (smallSigma1 (w.getD (i + 14) 0) + w.getD (i + 9) 0 +
                   smallSigma0 (w.getD (i + 1) 0) + w.getD i 0)))
    (toWords block).toArray

/-- One SHA-256 compression step (round `i`). -/
def shaRound (w : Array Nat) (s : List Nat) (i : Nat) : List Nat :=
  match s with
  | [a, b, c, d, e, f, g, hh] =>
    let t1 := w32 (hh + bigSigma1 e + shaCh e f g + shaK.getD i 0 + w.getD i 0)
    let t2 := w32 (bigSigma0 a + shaMaj a b c)
    [w32 (t1 + t2), a, b, c, w32 (d + t1), e, f, g]
  | s => s

/-- Compress one 64-byte block into the running hash state. -/
def shaCompress (h : List Nat) (block : List Nat) : List Nat :=
  let w := shaSchedule block
  let v := (List.range 64).foldl (shaRound w) h
  List.zipWith (fun x y => w32 (x + y)) h v

/-- SHA-256 digest of a byte list, as a list of 32 bytes. -/
def sha256 (msg : List Nat) : List Nat :=
  ((chunks64 (shaPad msg)).foldl shaCompress shaH0).flatMap be32

/-- UTF-8 encoding of one character (what Go's `[]byte(s)` holds per rune). -/
def utf8EncodeCharNat (c : Char) : List Nat :=
  let v := c.toNat
  if v < 0x80 then [v]
  else if v < 0x800 then [0xC0 + v / 64, 0x80 + v % 64]
  else if v < 0x10000 then [0xE0 + v / 4096, 0x80 + v / 64 % 64, 0x80 + v % 64]
  else [0xF0 + v / 262144, 0x80 + v / 4096 % 64, 0x80 + v / 64 % 64, 0x80 + v % 64]

/-- The UTF-8 bytes of a string (Go `[]byte(s)`). -/
def utf8Bytes (s : String) : List Nat := s.data.flatMap utf8EncodeCharNat

/-- `binary.BigEndian.Uint64` of the first 8 bytes of a byte list. -/
def beUint64 (bytes : List Nat) : Nat := (bytes.take 8).foldl (fun a b => a * 256 + b) 0

/-! ## Go `time.Time`

A Go `time.Time` is an absolute instant plus a location.  `After` and
`Before` compare the instants alone; `Format` renders the civil
(calendar) time in the value's location.  We embed the instant as total
nanoseconds since the Unix epoch and the location as its zone offset in
seconds east of UTC. -/

structure GoTime where
  nanos : Int
  offset : Int
deriving DecidableEq

/-- Go `t.After(u)`: the instant of `t` is strictly later. -/
def timeAfter (t u : GoTime) : Bool := decide (u.nanos < t.nanos)

/-- Go `t.Before(u)`: the instant of `t` is strictly earlier. -/
def timeBefore (t u : GoTime) : Bool := decide (t.nanos < u.nanos)

/-- Gregorian civil date `(year, month, day)` from days since 1970-01-01
(floor-division based; agrees with the Go `time` package's date
computation on its supported range). -/
def daysToCivil (z : Int) : Int × Int × Int :=
  let z4 := z + 719468
  let era := Int.fdiv z4 146097
  let doe := (z4 - era * 146097).toNat
  let yoe := (doe - doe / 1460 + doe / 36524 - doe / 146096) / 365
  let y := (yoe : Int) + era * 400
  let doy := doe - (365 * yoe + yoe / 4 - yoe / 100)
  let mp := (5 * doy + 2) / 153
  let d := doy - (153 * mp + 2) / 5 + 1
  let m : Int := if mp < 10 then (mp : Int) + 3 else (mp : Int) - 9
  (if m ≤ 2 then y + 1 else y, m, (d : Int))

/-- Decimal digit character. -/
def digitChar (n : Nat) : Char := Char.ofNat (48 + n)

/-- Decimal digits (most significant first); the fuel argument (any
bound on the digit count, decreased structurally so that the definition
evaluates inside the kernel) is instantiated with `n + 1`. -/
def natDigitsAux : Nat → Nat → List Char → List Char
  | 0, _, acc => acc
  | fuel + 1, n, acc =>
    if n < 10 then digitChar n :: acc
    else natDigitsAux fuel (n / 10) (digitChar (n % 10) :: acc)

/-- Decimal digits of a natural number (most significant first). -/
def natDigits (n : Nat) : List Char := natDigitsAux (n + 1) n []

/-- Render a natural number zero-padded to at least `w` digits. -/
def padNat (w n : Nat) : String :=
  let ds := natDigits n
  String.mk (List.replicate (w - ds.length) '0' ++ ds)

/-- Go `t.Format("2006-01-02")`: the civil date of `t` in its location,
as `YYYY-MM-DD`.  (Years are rendered as naturals; every date this
program formats has passed the year-2000 lower bound, so years are
positive.) -/
def format2006_01_02 (t : GoTime) : String :=
  let secs := Int.fdiv t.nanos 1000000000 + t.offset
  let days := Int.fdiv secs 86400
  let c := daysToCivil days
  padNat 4 c.1.toNat ++ "-" ++ padNat 2 c.2.1.toNat ++ "-" ++ padNat 2 c.2.2.toNat

/-! ## The image mapper (`ImageMapper`, `NewImageMapper`, `GetImageForDate`) -/

/-- Go string `≤` (byte-wise lexicographic; on valid UTF-8 this equals
code-point lexicographic order, which is what we compute). -/
def lexLe : List Char → List Char → Bool
  | [], _ => true
  | _ :: _, [] => false
  | a :: as, b :: bs => if a < b then true else if b < a then false else lexLe as bs

/-- Go string `≤` on `String`. -/
def goStrLe (a b : String) : Bool := lexLe a.data b.data

/-- Insert a string into a list that is sorted ascending. -/
def insertSorted (x : String) : List String → List String
  | [] => [x]
  | y :: ys => if goStrLe x y then x :: y :: ys else y :: insertSorted x ys

/-- `sort.Strings`: sort ascending in Go string order.  `sort.Strings`
is specified by its postcondition — the slice becomes a permutation of
itself sorted ascending — which for the total antisymmetric string
order determines the result uniquely; it is embedded as insertion sort
and proved sorted and permuting below. -/
def sortStrings (l : List String) : List String := l.foldr insertSorted []

structure ImageMapper where
  images : List String

/-- `NewImageMapper` copies the slice and sorts it. -/
def NewImageMapper (images : List String) : ImageMapper := ⟨sortStrings images⟩

/-- `time.Date(2000, 1, 1, 0, 0, 0, 0, time.UTC)`. -/
def epoch : GoTime := ⟨946684800000000000, 0⟩

/-- The score the Go loop computes for one image:
`binary.BigEndian.Uint64` of the first 8 bytes of
`sha256(dateHash ++ []byte(img))`. -/
def imageScore (dateHash : List Nat) (img : String) : Nat :=
  beUint64 (sha256 (dateHash ++ utf8Bytes img))

/-- The per-image score used for `date`:
`dateHash = sha256(date.Format("2006-01-02"))`. -/
def scoreForDate (date : GoTime) : String → Nat :=
  imageScore (sha256 (utf8Bytes (format2006_01_02 date)))

/-- One iteration of the Go selection loop: the accumulator is
`(maxScore, selectedImage)`, and the branch is
`score > maxScore || selectedImage == ""`. -/
def selectStep (sc : String → Nat) (p : Nat × String) (img : String) : Nat × String :=
  let score := sc img
  if score > p.1 || p.2 == "" then (score, img) else p

/-- Drop adjacent duplicates (a proof device: scanning an element twice
in a row leaves the selection accumulator unchanged, and in a sorted
list all duplicates are adjacent, so the selection on a sorted pool is
a function of this duplicate-free collapse, hence of the member set). -/
def collapseAdj : List String → List String
  | [] => []
  | [a] => [a]
  | a :: b :: rest => if a = b then collapseAdj (b :: rest) else a :: collapseAdj (b :: rest)

/-- `(*ImageMapper).GetImageForDate`.  `now` stands for the
`time.Now().In(location)` read inside the function; errors carry the Go
error messages (`EmptyPool`, `FutureDate`, `DateTooEarly`). -/
def ImageMapper.GetImageForDate (im : ImageMapper) (now date : GoTime) : Except String String :=
  if im.images.length = 0 then .error "image list is empty"
  else if timeAfter date now then .error "date is in the future"
  else if timeBefore date epoch then .error "date is before the supported range (Jan 1, 2000)"
  else .ok (im.images.foldl (selectStep (scoreForDate date)) (0, "")).2

/-! ## The directory scan (`getImageList`, over `filepath.Walk`)

The image directory is embedded as a tree of named entries.
`filepath.Walk` visits entries in lexical order and recurses into
subdirectories; the walk function records `info.Name()` — the base name,
not the path — whenever the entry is a file whose `filepath.Ext` is
`".jpg"` or `".jpeg"`.  Only the membership of the resulting list is
consumed downstream (the mapper re-sorts it), so the embedding walks
entries in the order of the tree. -/

inductive FSEntry where
  | file (name : String)
  | dir (name : String) (entries : List FSEntry)

/-- `filepath.Ext`: the suffix of the name starting at its final dot,
scanning backwards and stopping at a path separator; `""` if there is
no dot. -/
def goExtLoop : List Char → List Char → String
  | [], _ => ""
  | c :: rs, suf =>
    if c = '/' then "" else if c = '.' then String.mk ('.' :: suf) else goExtLoop rs (c :: suf)

/-- `filepath.Ext` on a string. -/
def goExt (s : String) : String := goExtLoop s.data.reverse []

/-- The walk-function filter: a file is admitted when
`filepath.Ext(info.Name()) == ".jpg" || filepath.Ext(info.Name()) == ".jpeg"`. -/
def extMatches (n : String) : Bool := goExt n == ".jpg" || goExt n == ".jpeg"

/-- The names `filepath.Walk` appends for a list of entries: matching
files contribute `info.Name()`; directories are recursed into. -/
def collectImages : List FSEntry → List String
  | [] => []
  | .file n :: rest => (if extMatches n then [n] else []) ++ collectImages rest
  | .dir _ sub :: rest => collectImages sub ++ collectImages rest
termination_by es => sizeOf es

/-- `getImageList` on the tree of entries of the image directory (the
root directory entry itself is a directory, hence never admitted).  The
`error` return of the Go function is an IO-level failure and is
modelled by the refresh environment's `scan` field instead. -/
def getImageList (entries : List FSEntry) : List String := collectImages entries

/-! ## The refresh procedure (`updateImageForToday`)

State: the published filename (`assetImageFilename`, `""` initially)
and the set of files present in the asset directory.  The trace records
the file-system effects of one call in order.  External calls that can
fail for IO reasons are supplied by the environment: `scan` is the
result of `getImageList` (`error` = directory scan failure) and
`copyOk` tells whether `copyFile` succeeds.  `os.Remove` is best-effort
in the source (its error is only logged); here it removes the file when
present. -/

inductive Event where
  | removeFile (path : String)
  | copyFile (src dst : String)
  | setPublished (name : String)
deriving DecidableEq, Repr

structure ServerState where
  assetImageFilename : String
  assetFiles : List String
deriving DecidableEq, Repr

structure RefreshEnv where
  scan : Except Unit (List String)
  now : GoTime
  copyOk : Bool

/-- `filepath.Join` for a directory and a base name (no cleaning is
needed for the simple operands the program joins). -/
def joinPath (dir name : String) : String := dir ++ "/" ++ name

/-- Add a file name to a directory listing (`os.Create` overwrites). -/
def insertNew (n : String) (l : List String) : List String := if n ∈ l then l else n :: l

/-- `fmt.Sprintf("today_%s.jpg", today.Format("2006-01-02"))`. -/
def todayName (t : GoTime) : String := "today_" ++ format2006_01_02 t ++ ".jpg"

/-- `updateImageForToday` as a state transition with an event trace.
The body mirrors the Go function: scan the image directory; return on
scan failure or an empty pool; build the mapper and select today's
image, returning on error; best-effort remove the previous asset; copy
the selected image to `today_<date>.jpg`, returning on copy failure;
finally update `assetImageFilename`. -/
def updateImageForToday (imgDir assetDir : String) (env : RefreshEnv) (st : ServerState) :
    ServerState × List Event :=
  match env.scan with
  | .error _ => (st, [])
  | .ok images =>
    if images.length = 0 then (st, [])
    else
      let mapper := NewImageMapper images
      match mapper.GetImageForDate env.now env.now with
      | .error _ => (st, [])
      | .ok selectedImage =>
        let removeEvents :=
          if st.assetImageFilename ≠ "" then
            [Event.removeFile (joinPath assetDir st.assetImageFilename)]
          else []
        let files1 :=
          if st.assetImageFilename ≠ "" then st.assetFiles.erase st.assetImageFilename
          else st.assetFiles
        let newImageName := todayName env.now
        let srcPath := joinPath imgDir selectedImage
        let destPath := joinPath assetDir newImageName
        if env.copyOk then
          (⟨newImageName, insertNew newImageName files1⟩,
           removeEvents ++ [Event.copyFile srcPath destPath, Event.setPublished newImageName])
        else
          (⟨st.assetImageFilename, files1⟩,
           removeEvents ++ [Event.copyFile srcPath destPath])

/-- Invariant of the Go selection loop after scanning `seen`: the
accumulator holds a non-empty name together with its score, the name
occurs in `seen`, every name before that occurrence scores strictly
less, and every name after it scores no more. -/
def GoodAcc (sc : String → Nat) (seen : List String) (p : Nat × String) : Prop :=
  p.2 ≠ "" ∧ p.1 = sc p.2 ∧ ∃ pre post, seen = pre ++ p.2 :: post ∧
    (∀ y ∈ pre, sc y < p.1) ∧ ∀ y ∈ post, sc y ≤ p.1

/-! ## The reference selection algorithm (from the specification)

Modelled from the spec: sort the pool lexicographically, score each
image, and return the image with the strictly greatest score, ties
broken in favor of the earliest image in sorted order.  `img` is that
choice exactly when the sorted pool splits around an occurrence of
`img` such that everything before it scores strictly less (otherwise an
earlier element would be the tie-broken maximum) and everything after
it scores no more. -/
def IsSpecSelection (pool : List String) (sc : String → Nat) (img : String) : Prop :=
  ∃ pre post, sortStrings pool = pre ++ img :: post ∧
    (∀ y ∈ pre, sc y < sc img) ∧ ∀ y ∈ post, sc y ≤ sc img

/-- A file named `n` occurs somewhere in the entry tree, at any depth. -/
inductive FileInTree : List FSEntry → String → Prop
  | here {es : List FSEntry} {n : String} : FSEntry.file n ∈ es → FileInTree es n
  | nested {es : List FSEntry} {d : String} {sub : List FSEntry} {n : String} :
      FSEntry.dir d sub ∈ es → FileInTree sub n → FileInTree es n

/-! ## Concrete inputs used by witnesses and counterexamples -/

/-- 2024-01-01 00:00:00 UTC. -/
def cnow : GoTime := ⟨1704067200000000000, 0⟩

/-- One second after `cnow`. -/
def cfuture : GoTime := ⟨1704067201000000000, 0⟩

def envCopyOk : RefreshEnv := ⟨.ok ["a.jpg"], cnow, true⟩

def envCopyFail : RefreshEnv := ⟨.ok ["a.jpg"], cnow, false⟩

def envScanFail : RefreshEnv := ⟨.error (), cnow, true⟩

def envJpeg : RefreshEnv := ⟨.ok ["a.jpeg"], cnow, true⟩

def stPrev : ServerState := ⟨"prev.jpg", ["prev.jpg"]⟩

def tree₀ : List FSEntry := [.file "b.JPG", .dir "sub" [.file "c.jpeg"], .file "a.jpg"]

/-! ## Order facts about Go string comparison -/

theorem lexLe_total : ∀ (as bs : List Char), lexLe as bs = true ∨ lexLe bs as = true
  | [], _ => Or.inl rfl
  | _ :: _, [] => Or.inr rfl
  | a :: as, b :: bs => by
    rcases lt_trichotomy a b with h | h | h
    · left; simp [lexLe, h]
    · subst h
      rcases lexLe_total as bs with ih | ih
      · left; simp [lexLe, lt_irrefl, ih]
      · right; simp [lexLe, lt_irrefl, ih]
    · right; simp [lexLe, h]

theorem lexLe_trans : ∀ (as bs cs : List Char),
    lexLe as bs = true → lexLe bs cs = true → lexLe as cs = true
  | [], _, _, _, _ => rfl
  | _ :: _, [], _, h1, _ => by simp [lexLe] at h1
  | _ :: _, _ :: _, [], _, h2 => by simp [lexLe] at h2
  | a :: as, b :: bs, c :: cs, h1, h2 => by
    rcases lt_trichotomy a b with hab | hab | hab
    · rcases lt_trichotomy b c with hbc | hbc | hbc
      · simp [lexLe, lt_trans hab hbc]
      · subst hbc; simp [lexLe, hab]
      · simp [lexLe, hbc, asymm hbc] at h2
    · subst hab
      simp only [lexLe, lt_irrefl, if_false] at h1
      rcases lt_trichotomy a c with hac | hac | hac
      · simp [lexLe, hac]
      · subst hac
        simp only [lexLe, lt_irrefl, if_false] at h2 ⊢
        exact lexLe_trans as bs cs h1 h2
      · simp [lexLe, hac, asymm hac] at h2
    · simp [lexLe, hab, asymm hab] at h1

theorem lexLe_antisymm : ∀ (as bs : List Char),
    lexLe as bs = true → lexLe bs as = true → as = bs
  | [], [], _, _ => rfl
  | [], _ :: _, _, h2 => by simp [lexLe] at h2
  | _ :: _, [], h1, _ => by simp [lexLe] at h1
  | a :: as, b :: bs, h1, h2 => by
    rcases lt_trichotomy a b with h | h | h
    · simp [lexLe, h, asymm h] at h2
    · subst h
      simp only [lexLe, lt_irrefl, if_false] at h1 h2
      rw [lexLe_antisymm as bs h1 h2]
    · simp [lexLe, h, asymm h] at h1

theorem goStrLe_total (a b : String) : (goStrLe a b || goStrLe b a) = true := by
  rcases lexLe_total a.data b.data with h | h <;> simp [goStrLe, h]

theorem goStrLe_trans (a b c : String) :
    goStrLe a b = true → goStrLe b c = true → goStrLe a c = true :=
  lexLe_trans a.data b.data c.data

theorem goStrLe_antisymm (a b : String) :
    goStrLe a b = true → goStrLe b a = true → a = b := by
  intro h1 h2
  have h := lexLe_antisymm a.data b.data h1 h2
  cases a; cases b; exact congrArg String.mk h

/-! ## Facts about `sortStrings` -/

theorem insertSorted_perm (x : String) : ∀ (l : List String), (insertSorted x l).Perm (x :: l)
  | [] => List.Perm.refl _
  | y :: ys => by
    by_cases h : goStrLe x y = true
    · simp [insertSorted, h]
    · have : insertSorted x (y :: ys) = y :: insertSorted x ys := by
        simp [insertSorted, h]
      rw [this]
      exact ((insertSorted_perm x ys).cons y).trans (List.Perm.swap x y ys)

theorem sortStrings_perm (l : List String) : (sortStrings l).Perm l := by
  induction l with
  | nil => exact List.Perm.refl _
  | cons x xs ih =>
    exact (insertSorted_perm x (sortStrings xs)).trans (ih.cons x)

theorem mem_insertSorted {x z : String} {l : List String} :
    z ∈ insertSorted x l ↔ z = x ∨ z ∈ l := by
  rw [(insertSorted_perm x l).mem_iff, List.mem_cons]

theorem insertSorted_sorted (x : String) : ∀ (l : List String),
    l.Pairwise (fun a b => goStrLe a b = true) →
    (insertSorted x l).Pairwise (fun a b => goStrLe a b = true)
  | [], _ => by simp [insertSorted]
  | y :: ys, hl => by
    rw [List.pairwise_cons] at hl
    obtain ⟨hy, hys⟩ := hl
    by_cases h : goStrLe x y = true
    · have hxz : ∀ z ∈ y :: ys, goStrLe x z = true := by
        intro z hz
        rcases List.mem_cons.mp hz with hz | hz
        · exact hz ▸ h
        · exact goStrLe_trans x y z h (hy z hz)
      simp only [insertSorted, h, if_true]
      exact List.pairwise_cons.mpr ⟨hxz, List.pairwise_cons.mpr ⟨hy, hys⟩⟩
    · have hyx : goStrLe y x = true := by
        rcases Bool.or_eq_true_iff.mp (goStrLe_total x y) with h' | h'
        · exact absurd h' h
        · exact h'
      have : insertSorted x (y :: ys) = y :: insertSorted x ys := by
        simp [insertSorted, h]
      rw [this]
      refine List.pairwise_cons.mpr ⟨?_, insertSorted_sorted x ys hys⟩
      intro z hz
      rcases mem_insertSorted.mp hz with hz | hz
      · exact hz ▸ hyx
      · exact hy z hz

theorem sortStrings_sorted (l : List String) :
    (sortStrings l).Pairwise (fun a b => goStrLe a b = true) := by
  induction l with
  | nil => exact List.Pairwise.nil
  | cons x xs ih => exact insertSorted_sorted x (sortStrings xs) ih

theorem mem_sortStrings {x : String} {l : List String} : x ∈ sortStrings l ↔ x ∈ l :=
  (sortStrings_perm l).mem_iff

theorem sortStrings_eq_nil_iff {l : List String} : sortStrings l = [] ↔ l = [] := by
  constructor
  · intro h
    have := (sortStrings_perm l).length_eq
    rw [h] at this
    exact List.length_eq_zero.mp this.symm
  · intro h; subst h; rfl

/-- Sorted lists that enumerate the same members without repetition are
equal. -/
theorem sortStrings_eq_of_mem_iff {l₁ l₂ : List String} (h₁ : l₁.Nodup) (h₂ : l₂.Nodup)
    (hm : ∀ x, x ∈ l₁ ↔ x ∈ l₂) : sortStrings l₁ = sortStrings l₂ := by
  have hp : l₁.Perm l₂ := (List.perm_ext_iff_of_nodup h₁ h₂).mpr hm
  have hps : (sortStrings l₁).Perm (sortStrings l₂) :=
    ((sortStrings_perm l₁).trans hp).trans (sortStrings_perm l₂).symm
  have : IsAntisymm String (fun a b => goStrLe a b = true) := ⟨goStrLe_antisymm⟩
  exact List.eq_of_perm_of_sorted hps (sortStrings_sorted l₁) (sortStrings_sorted l₂)

/-! ## The selection loop -/

theorem goodAcc_step (sc : String → Nat) (seen : List String) (p : Nat × String) (z : String)
    (hp : GoodAcc sc seen p) (hz : z ≠ "") : GoodAcc sc (seen ++ [z]) (selectStep sc p z) := by
  obtain ⟨hne, hsc, pre, post, hseen, hpre, hpost⟩ := hp
  have hbeq : (p.2 == "") = false := by simpa using hne
  by_cases hgt : p.1 < sc z
  · have : selectStep sc p z = (sc z, z) := by simp [selectStep, hgt]
    rw [this]
    refine ⟨hz, rfl, seen, [], by simp, ?_, by simp⟩
    intro y hy
    rw [hseen] at hy
    rcases List.mem_append.mp hy with hy | hy
    · exact lt_trans (hsc ▸ hpre y hy) hgt
    · rcases List.mem_cons.mp hy with hy | hy
      · exact hy ▸ hsc ▸ hgt
      · exact lt_of_le_of_lt (hsc ▸ hpost y hy) hgt
  · have : selectStep sc p z = p := by simp [selectStep, hgt, hbeq]
    rw [this]
    refine ⟨hne, hsc, pre, post ++ [z], by rw [hseen]; simp, hpre, ?_⟩
    intro y hy
    rcases List.mem_append.mp hy with hy | hy
    · exact hpost y hy
    · simpa using (List.mem_singleton.mp hy) ▸ (Nat.le_of_not_lt hgt)

theorem goodAcc_singleton (sc : String → Nat) (s : String) (hs : s ≠ "") :
    GoodAcc sc [s] (sc s, s) :=
  ⟨hs, rfl, [], [], rfl, by simp, by simp⟩

theorem goodAcc_foldl (sc : String → Nat) :
    ∀ (l : List String) (seen : List String) (p : Nat × String),
      GoodAcc sc seen p → (∀ y ∈ l, y ≠ "") →
      GoodAcc sc (seen ++ l) (l.foldl (selectStep sc) p)
  | [], seen, p, hp, _ => by simpa using hp
  | z :: rest, seen, p, hp, hl => by
    have h1 := goodAcc_step sc seen p z hp (hl z (by simp))
    have h2 := goodAcc_foldl sc rest (seen ++ [z]) (selectStep sc p z) h1
      (fun y hy => hl y (by simp [hy]))
    simpa [List.append_assoc] using h2

/-- One loop iteration either adopts the scanned image or keeps the
accumulator. -/
theorem selectStep_cases (sc : String → Nat) (p : Nat × String) (z : String) :
    selectStep sc p z = (sc z, z) ∨ selectStep sc p z = p := by
  by_cases hc : (decide (p.1 < sc z) || (p.2 == "")) = true
  · left; simp only [selectStep]; exact if_pos hc
  · right; simp only [selectStep]; exact if_neg hc

/-- The loop's final choice is the start accumulator's or a list member. -/
theorem foldl_select_mem (sc : String → Nat) :
    ∀ (l : List String) (p : Nat × String),
      (l.foldl (selectStep sc) p).2 = p.2 ∨ (l.foldl (selectStep sc) p).2 ∈ l
  | [], _ => Or.inl rfl
  | z :: rest, p => by
    rw [List.foldl_cons]
    rcases foldl_select_mem sc rest (selectStep sc p z) with h | h
    · rcases selectStep_cases sc p z with hs | hs
      · right; rw [hs] at h ⊢; simp [h]
      · left; rw [hs] at h ⊢; exact h
    · right; exact List.mem_cons_of_mem z h

/-- The first iteration always adopts the first image (the accumulator
starts as `(0, "")` and `"" == ""` holds). -/
theorem foldl_select_start (sc : String → Nat) (s : String) (rest : List String) :
    (s :: rest).foldl (selectStep sc) (0, "") = rest.foldl (selectStep sc) (sc s, s) := by
  simp [List.foldl_cons, selectStep]

/-- Scanning the same image twice in a row leaves the accumulator where
one scan left it: re-adoption recreates the same pair, and a rejected
image stays rejected. -/
theorem selectStep_idem (sc : String → Nat) (p : Nat × String) (z : String) :
    selectStep sc (selectStep sc p z) z = selectStep sc p z := by
  rcases selectStep_cases sc p z with h | h
  · rw [h]
    simp [selectStep]
  · rw [h]
    exact h

/-- The selection loop computes the same result on the collapse of its
input. -/
theorem foldl_collapseAdj (sc : String → Nat) :
    ∀ (S : List String) (p : Nat × String),
      S.foldl (selectStep sc) p = (collapseAdj S).foldl (selectStep sc) p
  | [], _ => rfl
  | [_], _ => rfl
  | a :: b :: rest, p => by
    by_cases hab : a = b
    · subst hab
      have h1 : (a :: a :: rest).foldl (selectStep sc) p = (a :: rest).foldl (selectStep sc) p := by
        simp only [List.foldl_cons, selectStep_idem]
      rw [h1, foldl_collapseAdj sc (a :: rest) p]
      simp [collapseAdj]
    · have h1 : collapseAdj (a :: b :: rest) = a :: collapseAdj (b :: rest) := by
        simp [collapseAdj, hab]
      rw [h1, List.foldl_cons]
      exact foldl_collapseAdj sc (b :: rest) (selectStep sc p a)
termination_by S _ => S.length

theorem mem_collapseAdj : ∀ (S : List String) (x : String), x ∈ collapseAdj S ↔ x ∈ S
  | [], _ => Iff.rfl
  | [_], _ => Iff.rfl
  | a :: b :: rest, x => by
    by_cases hab : a = b
    · subst hab
      rw [show collapseAdj (a :: a :: rest) = collapseAdj (a :: rest) from by simp [collapseAdj]]
      rw [mem_collapseAdj (a :: rest) x]
      simp only [List.mem_cons]
      tauto
    · rw [show collapseAdj (a :: b :: rest) = a :: collapseAdj (b :: rest) from by
        simp [collapseAdj, hab]]
      simp only [List.mem_cons, mem_collapseAdj (b :: rest) x]
termination_by S _ => S.length

theorem collapseAdj_sublist : ∀ (S : List String), (collapseAdj S).Sublist S
  | [] => List.Sublist.refl _
  | [_] => List.Sublist.refl _
  | a :: b :: rest => by
    by_cases hab : a = b
    · subst hab
      rw [show collapseAdj (a :: a :: rest) = collapseAdj (a :: rest) from by simp [collapseAdj]]
      exact (collapseAdj_sublist (a :: rest)).cons a
    · rw [show collapseAdj (a :: b :: rest) = a :: collapseAdj (b :: rest) from by
        simp [collapseAdj, hab]]
      exact (collapseAdj_sublist (b :: rest)).cons₂ a
termination_by S => S.length

/-- In a sorted list duplicates are adjacent, so the collapse of a
sorted list has no duplicates at all. -/
theorem collapseAdj_nodup : ∀ (S : List String),
    S.Pairwise (fun a b => goStrLe a b = true) → (collapseAdj S).Nodup
  | [], _ => by simp [collapseAdj]
  | [_], _ => by simp [collapseAdj]
  | a :: b :: rest, h => by
    rw [List.pairwise_cons] at h
    obtain ⟨h1, h2⟩ := h
    by_cases hab : a = b
    · subst hab
      rw [show collapseAdj (a :: a :: rest) = collapseAdj (a :: rest) from by simp [collapseAdj]]
      exact collapseAdj_nodup (a :: rest) h2
    · rw [show collapseAdj (a :: b :: rest) = a :: collapseAdj (b :: rest) from by
        simp [collapseAdj, hab]]
      rw [List.nodup_cons]
      refine ⟨?_, collapseAdj_nodup (b :: rest) h2⟩
      intro hmem
      rcases List.mem_cons.mp ((mem_collapseAdj (b :: rest) a).mp hmem) with h' | h'
      · exact hab h'
      · rw [List.pairwise_cons] at h2
        have hba : goStrLe b a = true := h2.1 a h'
        have hab' : goStrLe a b = true := h1 b (List.mem_cons_self b rest)
        exact hab (goStrLe_antisymm a b hab' hba)
termination_by S _ => S.length

/-- Sorted duplicate-free lists with the same members are equal. -/
theorem sorted_eq_of_mem_iff {S₁ S₂ : List String}
    (hs₁ : S₁.Pairwise (fun a b => goStrLe a b = true))
    (hs₂ : S₂.Pairwise (fun a b => goStrLe a b = true))
    (hn₁ : S₁.Nodup) (hn₂ : S₂.Nodup) (hm : ∀ x, x ∈ S₁ ↔ x ∈ S₂) : S₁ = S₂ := by
  have hp := (List.perm_ext_iff_of_nodup hn₁ hn₂).mpr hm
  have : IsAntisymm String (fun a b => goStrLe a b = true) := ⟨goStrLe_antisymm⟩
  exact List.eq_of_perm_of_sorted hp hs₁ hs₂

theorem split_choice_eq (sc : String → Nat) (p₁ : List String) :
    ∀ (a b : String) (q₁ p₂ q₂ : List String),
      p₁ ++ a :: q₁ = p₂ ++ b :: q₂ →
      (∀ y ∈ p₁, sc y < sc a) → (∀ y ∈ q₁, sc y ≤ sc a) →
      (∀ y ∈ p₂, sc y < sc b) → (∀ y ∈ q₂, sc y ≤ sc b) → a = b := by
  induction p₁ with
  | nil =>
    intro a b q₁ p₂ q₂ h₂ _ hq₁ hp₂ _
    cases p₂ with
    | nil =>
      rw [List.nil_append, List.nil_append] at h₂
      cases h₂
      rfl
    | cons c p₂' =>
      rw [List.nil_append, List.cons_append] at h₂
      injection h₂ with hac htl
      subst hac
      have hab : sc a < sc b := hp₂ a (by simp)
      have hba : sc b ≤ sc a := hq₁ b (by rw [htl]; simp)
      exact absurd (lt_of_lt_of_le hab hba) (lt_irrefl _)
  | cons c p₁' ih =>
    intro a b q₁ p₂ q₂ h₂ hp₁ hq₁ hp₂ hq₂
    cases p₂ with
    | nil =>
      rw [List.nil_append, List.cons_append] at h₂
      injection h₂ with hbc htl
      subst hbc
      have hba : sc c < sc a := hp₁ c (by simp)
      have hab : sc a ≤ sc c := hq₂ a (by rw [← htl]; simp)
      exact absurd (lt_of_lt_of_le hba hab) (lt_irrefl _)
    | cons c' p₂' =>
      rw [List.cons_append, List.cons_append] at h₂
      injection h₂ with hcc htl
      exact ih a b q₁ p₂' q₂ htl
        (fun y hy => hp₁ y (by simp [hy])) hq₁ (fun y hy => hp₂ y (by simp [hy])) hq₂

/-- The reference algorithm's choice is unique. -/
theorem isSpecSelection_unique {pool : List String} {sc : String → Nat} {a b : String}
    (ha : IsSpecSelection pool sc a) (hb : IsSpecSelection pool sc b) : a = b := by
  obtain ⟨p₁, q₁, h₁, hp₁, hq₁⟩ := ha
  obtain ⟨p₂, q₂, h₂, hp₂, hq₂⟩ := hb
  exact split_choice_eq sc p₁ a b q₁ p₂ q₂ (h₁ ▸ h₂) hp₁ hq₁ hp₂ hq₂

/-! ## Behaviour of `GetImageForDate` -/

theorem newImageMapper_images (l : List String) : (NewImageMapper l).images = sortStrings l := rfl

/-- On a non-empty pool and a valid date, `GetImageForDate` reaches the
selection loop. -/
theorem getImageForDate_ok (pool : List String) (now date : GoTime)
    (hne : pool ≠ []) (hfut : timeAfter date now = false) (hold : timeBefore date epoch = false) :
    (NewImageMapper pool).GetImageForDate now date =
      .ok ((sortStrings pool).foldl (selectStep (scoreForDate date)) (0, "")).2 := by
  have hlen : ¬ (sortStrings pool).length = 0 := fun h =>
    hne (sortStrings_eq_nil_iff.mp (List.length_eq_zero.mp h))
  simp only [ImageMapper.GetImageForDate, newImageMapper_images]
  rw [if_neg hlen, if_neg (by simp [hfut]), if_neg (by simp [hold])]

/-- A sorted non-empty pool is a head and a tail. -/
theorem sortStrings_cons_of_ne_nil {pool : List String} (hne : pool ≠ []) :
    ∃ s rest, sortStrings pool = s :: rest := by
  cases h : sortStrings pool with
  | nil => exact absurd (sortStrings_eq_nil_iff.mp h) hne
  | cons s rest => exact ⟨s, rest, rfl⟩

/-- C2 (amended): for every non-empty pool none of whose names is the
empty string, and every valid date, `GetImageForDate` returns exactly
the reference algorithm's choice: the image with the strictly greatest
score in the sorted pool, ties broken in favor of the earliest.  (The
restriction to non-empty names is forced by the loop condition
`score > maxScore || selectedImage == ""`, which re-fires when the
empty string is the current selection.) -/
theorem getImageForDate_meets_reference (pool : List String) (now date : GoTime)
    (hne : pool ≠ []) (hns : ∀ x ∈ pool, x ≠ "")
    (hfut : timeAfter date now = false) (hold : timeBefore date epoch = false) :
    ∃ img, (NewImageMapper pool).GetImageForDate now date = .ok img ∧
      IsSpecSelection pool (scoreForDate date) img := by
  rw [getImageForDate_ok pool now date hne hfut hold]
  refine ⟨_, rfl, ?_⟩
  obtain ⟨s, rest, hsr⟩ := sortStrings_cons_of_ne_nil hne
  rw [hsr, foldl_select_start]
  have hs_pool : s ∈ pool := mem_sortStrings.mp (hsr ▸ List.mem_cons_self s rest)
  have hgood₀ : GoodAcc (scoreForDate date) [s] (scoreForDate date s, s) :=
    goodAcc_singleton (scoreForDate date) s (hns s hs_pool)
  have hrest : ∀ y ∈ rest, y ≠ "" := fun y hy =>
    hns y (mem_sortStrings.mp (hsr ▸ List.mem_cons_of_mem s hy))
  have hgood := goodAcc_foldl (scoreForDate date) rest [s] _ hgood₀ hrest
  obtain ⟨hne', hsc, pre, post, hseen, hpre, hpost⟩ := hgood
  refine ⟨pre, post, ?_, ?_, ?_⟩
  · rw [hsr]
    simpa using hseen
  · intro y hy
    have := hpre y hy
    rwa [hsc] at this
  · intro y hy
    have := hpost y hy
    rwa [hsc] at this

/-- C5: two input image lists with equal membership — the same set of
names, in any enumeration order and with any multiplicities — yield the
same selection for every date: in the sorted pool duplicates are
adjacent and scanning a name twice leaves the loop accumulator
unchanged, so the result depends only on the set of names and the
date. -/
theorem getImageForDate_order_independent (l₁ l₂ : List String)
    (hm : ∀ x, x ∈ l₁ ↔ x ∈ l₂) (now date : GoTime) :
    (NewImageMapper l₁).GetImageForDate now date = (NewImageMapper l₂).GetImageForDate now date := by
  have hc : collapseAdj (sortStrings l₁) = collapseAdj (sortStrings l₂) := by
    refine sorted_eq_of_mem_iff
      (List.Pairwise.sublist (collapseAdj_sublist _) (sortStrings_sorted l₁))
      (List.Pairwise.sublist (collapseAdj_sublist _) (sortStrings_sorted l₂))
      (collapseAdj_nodup _ (sortStrings_sorted l₁))
      (collapseAdj_nodup _ (sortStrings_sorted l₂)) ?_
    intro x
    rw [mem_collapseAdj, mem_collapseAdj, mem_sortStrings, mem_sortStrings]
    exact hm x
  have hfold : (sortStrings l₁).foldl (selectStep (scoreForDate date)) (0, "") =
      (sortStrings l₂).foldl (selectStep (scoreForDate date)) (0, "") := by
    rw [foldl_collapseAdj, hc, ← foldl_collapseAdj]
  have hlen : (sortStrings l₁).length = 0 ↔ (sortStrings l₂).length = 0 := by
    rw [List.length_eq_zero, List.length_eq_zero, sortStrings_eq_nil_iff, sortStrings_eq_nil_iff,
        List.eq_nil_iff_forall_not_mem, List.eq_nil_iff_forall_not_mem]
    constructor
    · intro h x hx
      exact h x ((hm x).mpr hx)
    · intro h x hx
      exact h x ((hm x).mp hx)
  simp only [ImageMapper.GetImageForDate, newImageMapper_images]
  by_cases h0 : (sortStrings l₁).length = 0
  · rw [if_pos h0, if_pos (hlen.mp h0)]
  · rw [if_neg h0, if_neg (fun h => h0 (hlen.mpr h)), hfold]

/-- Whatever `GetImageForDate` returns successfully is a pool member. -/
theorem getImageForDate_ok_mem {pool : List String} {now date : GoTime} {img : String}
    (h : (NewImageMapper pool).GetImageForDate now date = .ok img) : img ∈ pool := by
  simp only [ImageMapper.GetImageForDate, newImageMapper_images] at h
  by_cases h0 : (sortStrings pool).length = 0
  · rw [if_pos h0] at h; simp at h
  rw [if_neg h0] at h
  by_cases h1 : timeAfter date now = true
  · rw [if_pos h1] at h; simp at h
  rw [if_neg h1] at h
  by_cases h2 : timeBefore date epoch = true
  · rw [if_pos h2] at h; simp at h
  rw [if_neg h2] at h
  injection h with h
  have hne : pool ≠ [] := fun hnil => h0 (by rw [sortStrings_eq_nil_iff.mpr hnil]; rfl)
  obtain ⟨s, rest, hsr⟩ := sortStrings_cons_of_ne_nil hne
  rw [hsr, foldl_select_start] at h
  rcases foldl_select_mem (scoreForDate date) rest (scoreForDate date s, s) with hm | hm
  · rw [h] at hm
    exact mem_sortStrings.mp (hsr ▸ hm ▸ List.mem_cons_self s rest)
  · rw [h] at hm
    exact mem_sortStrings.mp (hsr ▸ List.mem_cons_of_mem s hm)

/-! ## Behaviour of the directory scan -/

theorem fileInTree_nil {n : String} : ¬ FileInTree [] n := by
  intro h
  cases h with
  | here hmem => exact absurd hmem (List.not_mem_nil _)
  | nested hmem _ => exact absurd hmem (List.not_mem_nil _)

theorem fileInTree_cons {e : FSEntry} {es : List FSEntry} {n : String} :
    FileInTree (e :: es) n ↔
      e = .file n ∨ (∃ d sub, e = .dir d sub ∧ FileInTree sub n) ∨ FileInTree es n := by
  constructor
  · intro h
    cases h with
    | here hmem =>
      rcases List.mem_cons.mp hmem with hmem | hmem
      · exact Or.inl hmem.symm
      · exact Or.inr (Or.inr (.here hmem))
    | nested hmem hsub =>
      rcases List.mem_cons.mp hmem with hmem | hmem
      · exact Or.inr (Or.inl ⟨_, _, hmem.symm, hsub⟩)
      · exact Or.inr (Or.inr (.nested hmem hsub))
  · rintro (h | ⟨d, sub, he, hsub⟩ | h)
    · rw [h]; exact .here (List.mem_cons_self _ es)
    · rw [he]; exact .nested (List.mem_cons_self _ es) hsub
    · cases h with
      | here hmem => exact .here (List.mem_cons_of_mem e hmem)
      | nested hmem hsub => exact .nested (List.mem_cons_of_mem e hmem) hsub

/-- The scan admits exactly the file names occurring anywhere in the
tree whose `filepath.Ext` is the literal `".jpg"` or `".jpeg"`. -/
theorem mem_collectImages : ∀ (es : List FSEntry) (n : String),
    n ∈ collectImages es ↔ FileInTree es n ∧ extMatches n = true
  | [], n => by
    simp only [collectImages]
    exact iff_of_false (by simp) (fun h => fileInTree_nil h.1)
  | .file m :: rest, n => by
    have ih := mem_collectImages rest n
    simp only [collectImages, List.mem_append]
    rw [fileInTree_cons]
    constructor
    · rintro (h | h)
      · by_cases hm : extMatches m = true
        · rw [if_pos hm] at h
          have hnm : n = m := by simpa using h
          subst hnm
          exact ⟨Or.inl rfl, hm⟩
        · rw [if_neg hm] at h
          simp at h
      · obtain ⟨hf, hx⟩ := ih.mp h
        exact ⟨Or.inr (Or.inr hf), hx⟩
    · rintro ⟨hf | ⟨d, sub, he, hsub⟩ | hf, hx⟩
      · injection hf with hmn
        subst hmn
        left
        rw [if_pos hx]
        simp
      · cases he
      · right
        exact ih.mpr ⟨hf, hx⟩
  | .dir d sub :: rest, n => by
    have ih1 := mem_collectImages sub n
    have ih2 := mem_collectImages rest n
    simp only [collectImages, List.mem_append]
    rw [fileInTree_cons]
    constructor
    · rintro (h | h)
      · obtain ⟨hf, hx⟩ := ih1.mp h
        exact ⟨Or.inr (Or.inl ⟨d, sub, rfl, hf⟩), hx⟩
      · obtain ⟨hf, hx⟩ := ih2.mp h
        exact ⟨Or.inr (Or.inr hf), hx⟩
    · rintro ⟨hf | ⟨d', sub', he, hsub⟩ | hf, hx⟩
      · cases hf
      · injection he with hd hsub'
        left
        refine ih1.mpr ⟨?_, hx⟩
        rw [hsub']
        exact hsub
      · right
        exact ih2.mpr ⟨hf, hx⟩
termination_by es _ => sizeOf es

theorem mem_getImageList {es : List FSEntry} {n : String} :
    n ∈ getImageList es ↔ FileInTree es n ∧ extMatches n = true :=
  mem_collectImages es n

/-! ## Behaviour of the refresh procedure -/

theorem updateImageForToday_scan_error (imgDir assetDir : String) (env : RefreshEnv)
    (st : ServerState) {u : Unit} (h : env.scan = .error u) :
    updateImageForToday imgDir assetDir env st = (st, []) := by
  simp [updateImageForToday, h]

theorem updateImageForToday_empty (imgDir assetDir : String) (env : RefreshEnv)
    (st : ServerState) {imgs : List String} (h : env.scan = .ok imgs) (h0 : imgs.length = 0) :
    updateImageForToday imgDir assetDir env st = (st, []) := by
  simp only [updateImageForToday, h]
  rw [if_pos h0]

theorem updateImageForToday_select_error (imgDir assetDir : String) (env : RefreshEnv)
    (st : ServerState) {imgs : List String} {e : String} (h : env.scan = .ok imgs)
    (he : (NewImageMapper imgs).GetImageForDate env.now env.now = .error e) :
    updateImageForToday imgDir assetDir env st = (st, []) := by
  simp only [updateImageForToday, h]
  by_cases h0 : imgs.length = 0
  · rw [if_pos h0]
  · rw [if_neg h0, he]

/-- An `ok` selection is only possible from a non-empty pool. -/
theorem length_ne_zero_of_ok {imgs : List String} {now date : GoTime} {sel : String}
    (hsel : (NewImageMapper imgs).GetImageForDate now date = .ok sel) : ¬ imgs.length = 0 := by
  intro h0
  rw [List.length_eq_zero] at h0
  subst h0
  simp [ImageMapper.GetImageForDate, newImageMapper_images, sortStrings] at hsel

theorem updateImageForToday_copy_ok (imgDir assetDir : String) (env : RefreshEnv)
    (st : ServerState) {imgs : List String} {sel : String} (h : env.scan = .ok imgs)
    (hsel : (NewImageMapper imgs).GetImageForDate env.now env.now = .ok sel)
    (hc : env.copyOk = true) :
    updateImageForToday imgDir assetDir env st =
      (⟨todayName env.now,
        insertNew (todayName env.now)
          (if st.assetImageFilename ≠ "" then st.assetFiles.erase st.assetImageFilename
           else st.assetFiles)⟩,
       (if st.assetImageFilename ≠ "" then
          [Event.removeFile (joinPath assetDir st.assetImageFilename)]
        else []) ++
         [Event.copyFile (joinPath imgDir sel) (joinPath assetDir (todayName env.now)),
          Event.setPublished (todayName env.now)]) := by
  simp only [updateImageForToday, h]
  rw [if_neg (length_ne_zero_of_ok hsel), hsel, hc]
  simp

theorem updateImageForToday_copy_fail (imgDir assetDir : String) (env : RefreshEnv)
    (st : ServerState) {imgs : List String} {sel : String} (h : env.scan = .ok imgs)
    (hsel : (NewImageMapper imgs).GetImageForDate env.now env.now = .ok sel)
    (hc : env.copyOk = false) :
    updateImageForToday imgDir assetDir env st =
      (⟨st.assetImageFilename,
        if st.assetImageFilename ≠ "" then st.assetFiles.erase st.assetImageFilename
        else st.assetFiles⟩,
       (if st.assetImageFilename ≠ "" then
          [Event.removeFile (joinPath assetDir st.assetImageFilename)]
        else []) ++
         [Event.copyFile (joinPath imgDir sel) (joinPath assetDir (todayName env.now))]) := by
  simp only [updateImageForToday, h]
  rw [if_neg (length_ne_zero_of_ok hsel), hsel, hc]
  simp

/-! ## Claims -/

/-- C1 (amended): a refresh cycle that fails during the directory scan,
on an empty pool, or during selection returns with the state fully
intact (published filename unchanged, no file deleted, no events); a
cycle that fails at the file copy leaves the published filename
unchanged, but the previous asset file has at that point already been
removed (best-effort) — the code deletes before it copies. -/
theorem refresh_failure_preserves_published (imgDir assetDir : String) (env : RefreshEnv)
    (st : ServerState) :
    (∀ u, env.scan = .error u → updateImageForToday imgDir assetDir env st = (st, [])) ∧
    (env.scan = .ok [] → updateImageForToday imgDir assetDir env st = (st, [])) ∧
    (∀ imgs e, env.scan = .ok imgs →
      (NewImageMapper imgs).GetImageForDate env.now env.now = .error e →
      updateImageForToday imgDir assetDir env st = (st, [])) ∧
    (env.copyOk = false →
      (updateImageForToday imgDir assetDir env st).1.assetImageFilename =
        st.assetImageFilename) := by
  refine ⟨fun u h => updateImageForToday_scan_error _ _ _ _ h,
          fun h => updateImageForToday_empty _ _ _ _ h rfl,
          fun imgs e h he => updateImageForToday_select_error _ _ _ _ h he, ?_⟩
  intro hc
  cases hscan : env.scan with
  | error u => rw [updateImageForToday_scan_error _ _ _ _ hscan]
  | ok imgs =>
    by_cases h0 : imgs.length = 0
    · rw [updateImageForToday_empty _ _ _ _ hscan h0]
    · cases hsel : (NewImageMapper imgs).GetImageForDate env.now env.now with
      | error e => rw [updateImageForToday_select_error _ _ _ _ hscan hsel]
      | ok sel => rw [updateImageForToday_copy_fail _ _ _ _ hscan hsel hc]

theorem refresh_failure_preserves_published_witness :
    updateImageForToday "images" "assets" envScanFail stPrev = (stPrev, []) ∧
    (updateImageForToday "images" "assets" envCopyFail stPrev).1.assetImageFilename =
      stPrev.assetImageFilename :=
  ⟨(refresh_failure_preserves_published "images" "assets" envScanFail stPrev).1 () rfl,
   (refresh_failure_preserves_published "images" "assets" envCopyFail stPrev).2.2.2 rfl⟩

/-- C1 counterexample: a refresh cycle that fails at the file copy is
not a no-op.  Starting from a state that publishes `prev.jpg` (whose
file is present), the failing cycle leaves the published filename
`prev.jpg` but its file has been deleted — the trace removes the old
file before the copy attempt, so the system is left without a servable
image. -/
theorem refresh_copy_failure_deletes_previous :
    stPrev.assetImageFilename = "prev.jpg" ∧ stPrev.assetFiles = ["prev.jpg"] ∧
    updateImageForToday "images" "assets" envCopyFail stPrev =
      (⟨"prev.jpg", []⟩,
       [Event.removeFile "assets/prev.jpg",
        Event.copyFile "images/a.jpg" "assets/today_2024-01-01.jpg"]) :=
  ⟨rfl, rfl, rfl⟩

theorem getImageForDate_meets_reference_witness :
    ∃ img, (NewImageMapper ["b.jpg", "a.jpg"]).GetImageForDate cnow cnow = .ok img ∧
      IsSpecSelection ["b.jpg", "a.jpg"] (scoreForDate cnow) img :=
  getImageForDate_meets_reference ["b.jpg", "a.jpg"] cnow cnow (by decide) (by decide) rfl rfl

/-- C2 counterexample: on the pool `["", "f.jpg"]` and the date
2024-01-01, the empty string has the strictly greatest score, so the
reference algorithm selects `""`; but the loop condition
`score > maxScore || selectedImage == ""` re-fires on the second
iteration and the code returns `"f.jpg"`.  No image is both the code's
result and the reference choice at this input. -/
theorem selectImage_reference_counterexample :
    ¬ ∃ img, (NewImageMapper ["", "f.jpg"]).GetImageForDate cnow cnow = Except.ok img ∧
        IsSpecSelection ["", "f.jpg"] (scoreForDate cnow) img := by
  rintro ⟨img, hok, hspec⟩
  have hcode : (NewImageMapper ["", "f.jpg"]).GetImageForDate cnow cnow = Except.ok "f.jpg" := by
    rfl
  rw [hcode] at hok
  injection hok with himg
  have hspec' : IsSpecSelection ["", "f.jpg"] (scoreForDate cnow) "" := by
    refine ⟨[], ["f.jpg"], rfl, by simp, ?_⟩
    intro y hy
    have hy' : y = "f.jpg" := by simpa using hy
    subst hy'
    decide
  have himg' : img = "" := isSpecSelection_unique hspec hspec'
  rw [← himg] at himg'
  exact absurd himg' (by decide)

theorem getImageForDate_order_independent_witness :
    (NewImageMapper ["a.jpg", "b.jpg", "a.jpg"]).GetImageForDate cnow cnow =
      (NewImageMapper ["b.jpg", "a.jpg"]).GetImageForDate cnow cnow :=
  getImageForDate_order_independent ["a.jpg", "b.jpg", "a.jpg"] ["b.jpg", "a.jpg"]
    (fun x => by simp only [List.mem_cons, List.not_mem_nil]; tauto) cnow cnow

/-- C4 (amended): the validity checks of `GetImageForDate` run in a
fixed order — empty pool, then future date, then date below the epoch:
it fails with the EmptyPool error whenever the pool is empty; with the
FutureDate error whenever the pool is non-empty and the date is
strictly after now; with the DateTooEarly error whenever the pool is
non-empty, the date is not after now and strictly before 2000-01-01
UTC; and succeeds on every other input (in particular, a non-empty
pool succeeds on exactly 2000-01-01 00:00 UTC when now is not earlier). -/
theorem selectImage_error_characterization (pool : List String) (now date : GoTime) :
    (pool = [] →
      (NewImageMapper pool).GetImageForDate now date = .error "image list is empty") ∧
    (pool ≠ [] → timeAfter date now = true →
      (NewImageMapper pool).GetImageForDate now date = .error "date is in the future") ∧
    (pool ≠ [] → timeAfter date now = false → timeBefore date epoch = true →
      (NewImageMapper pool).GetImageForDate now date =
        .error "date is before the supported range (Jan 1, 2000)") ∧
    (pool ≠ [] → timeAfter date now = false → timeBefore date epoch = false →
      ∃ img, (NewImageMapper pool).GetImageForDate now date = .ok img) := by
  have hlen : pool ≠ [] → ¬ (sortStrings pool).length = 0 := fun hne h =>
    hne (sortStrings_eq_nil_iff.mp (List.length_eq_zero.mp h))
  refine ⟨?_, ?_, ?_, ?_⟩
  · intro h
    subst h
    simp [ImageMapper.GetImageForDate, newImageMapper_images, sortStrings]
  · intro hne hf
    simp only [ImageMapper.GetImageForDate, newImageMapper_images]
    rw [if_neg (hlen hne), if_pos hf]
  · intro hne hf hb
    simp only [ImageMapper.GetImageForDate, newImageMapper_images]
    rw [if_neg (hlen hne), if_neg (by simp [hf]), if_pos hb]
  · intro hne hf hb
    exact ⟨_, getImageForDate_ok pool now date hne hf hb⟩

theorem selectImage_error_characterization_witness :
    ∃ img, (NewImageMapper ["a.jpg"]).GetImageForDate cnow epoch = .ok img :=
  (selectImage_error_characterization ["a.jpg"] cnow epoch).2.2.2 (by decide) rfl rfl

/-- C4 counterexample: on an empty pool with a strictly future date the
code fails with the EmptyPool error, not the FutureDate error — the
empty-pool check runs first, so "fails with FutureDate whenever the
date is strictly after now" does not hold as stated. -/
theorem empty_pool_future_date_error :
    timeAfter cfuture cnow = true ∧
    (NewImageMapper []).GetImageForDate cnow cfuture = .error "image list is empty" ∧
    ("image list is empty" : String) ≠ "date is in the future" :=
  ⟨rfl, rfl, by decide⟩

/-- C6: for every non-empty pool and every valid date, the selected
image is a member of the input pool. -/
theorem selected_image_mem_pool (pool : List String) (now date : GoTime)
    (hne : pool ≠ []) (hfut : timeAfter date now = false) (hold : timeBefore date epoch = false) :
    ∃ img, (NewImageMapper pool).GetImageForDate now date = .ok img ∧ img ∈ pool := by
  rw [getImageForDate_ok pool now date hne hfut hold]
  exact ⟨_, rfl, getImageForDate_ok_mem (getImageForDate_ok pool now date hne hfut hold)⟩

theorem selected_image_mem_pool_witness :
    ∃ img, (NewImageMapper ["a.jpg", "b.jpg"]).GetImageForDate cnow cnow = .ok img ∧
      img ∈ ["a.jpg", "b.jpg"] :=
  selected_image_mem_pool ["a.jpg", "b.jpg"] cnow cnow (by decide) rfl rfl

/-- C3 (amended): the file-system effects of one refresh call occur in
this order — the previous asset file is removed first (best-effort,
only when a previous name is published), then the new asset file is
written, and the visible published-filename pointer is updated last and
only after a successful write.  Consequently, between the removal and
the completed copy a reader can observe the old published filename
without its file. -/
theorem refresh_event_order (imgDir assetDir : String) (env : RefreshEnv) (st : ServerState) :
    (updateImageForToday imgDir assetDir env st).2 = [] ∨
    (∃ s d, (updateImageForToday imgDir assetDir env st).2 = [Event.copyFile s d]) ∨
    (∃ s d n, (updateImageForToday imgDir assetDir env st).2 =
      [Event.copyFile s d, Event.setPublished n]) ∨
    (∃ p s d, (updateImageForToday imgDir assetDir env st).2 =
      [Event.removeFile p, Event.copyFile s d]) ∨
    (∃ p s d n, (updateImageForToday imgDir assetDir env st).2 =
      [Event.removeFile p, Event.copyFile s d, Event.setPublished n]) := by
  cases hscan : env.scan with
  | error u => rw [updateImageForToday_scan_error _ _ _ _ hscan]; exact Or.inl rfl
  | ok imgs =>
    by_cases h0 : imgs.length = 0
    · rw [updateImageForToday_empty _ _ _ _ hscan h0]; exact Or.inl rfl
    · cases hsel : (NewImageMapper imgs).GetImageForDate env.now env.now with
      | error e =>
        rw [updateImageForToday_select_error _ _ _ _ hscan hsel]
        exact Or.inl rfl
      | ok sel =>
        cases hc : env.copyOk with
        | true =>
          rw [updateImageForToday_copy_ok _ _ _ _ hscan hsel hc]
          by_cases hprev : st.assetImageFilename ≠ ""
          · simp only [if_pos hprev]
            exact Or.inr (Or.inr (Or.inr (Or.inr ⟨_, _, _, _, rfl⟩)))
          · simp only [if_neg hprev]
            exact Or.inr (Or.inr (Or.inl ⟨_, _, _, rfl⟩))
        | false =>
          rw [updateImageForToday_copy_fail _ _ _ _ hscan hsel hc]
          by_cases hprev : st.assetImageFilename ≠ ""
          · simp only [if_pos hprev]
            exact Or.inr (Or.inr (Or.inr (Or.inl ⟨_, _, _, rfl⟩)))
          · simp only [if_neg hprev]
            exact Or.inr (Or.inl ⟨_, _, rfl⟩)

/-- C3 counterexample: in a successful refresh from a state with a
published image, the trace removes the previous asset file first (index
0) and only then writes the new file (index 1) — the new asset file is
not written before the previous one is deleted, and during that window
the published filename `prev.jpg` has no backing file. -/
theorem refresh_delete_precedes_write :
    (updateImageForToday "images" "assets" envCopyOk stPrev).2 =
      [Event.removeFile "assets/prev.jpg",
       Event.copyFile "images/a.jpg" "assets/today_2024-01-01.jpg",
       Event.setPublished "today_2024-01-01.jpg"] := rfl

/-- C7: the scan admits into the pool exactly the non-directory entries
whose `filepath.Ext` is the literal `".jpg"` or `".jpeg"` — an exact,
case-sensitive match, so names ending in `".JPG"` or `".Jpeg"` are
never admitted. -/
theorem scan_admits_exact_extensions :
    (∀ (es : List FSEntry) (n : String),
      n ∈ getImageList es ↔ FileInTree es n ∧ (goExt n = ".jpg" ∨ goExt n = ".jpeg")) ∧
    (∀ es : List FSEntry, "photo.JPG" ∉ getImageList es) ∧
    (∀ es : List FSEntry, "photo.Jpeg" ∉ getImageList es) := by
  have hiff : ∀ (es : List FSEntry) (n : String),
      n ∈ getImageList es ↔ FileInTree es n ∧ (goExt n = ".jpg" ∨ goExt n = ".jpeg") := by
    intro es n
    rw [mem_getImageList]
    constructor
    · rintro ⟨hf, hx⟩
      exact ⟨hf, by simpa [extMatches] using hx⟩
    · rintro ⟨hf, hx⟩
      exact ⟨hf, by simpa [extMatches] using hx⟩
  refine ⟨hiff, ?_, ?_⟩
  · intro es hmem
    rcases (hiff es _).mp hmem with ⟨_, h | h⟩
    · exact absurd h (by decide)
    · exact absurd h (by decide)
  · intro es hmem
    rcases (hiff es _).mp hmem with ⟨_, h | h⟩
    · exact absurd h (by decide)
    · exact absurd h (by decide)

theorem scan_admits_exact_extensions_witness :
    ("a.jpg" ∈ getImageList tree₀) ∧ ("photo.JPG" ∉ getImageList tree₀) := by
  constructor
  · refine (scan_admits_exact_extensions.1 tree₀ "a.jpg").mpr ⟨.here ?_, Or.inl (by decide)⟩
    exact List.mem_cons_of_mem _ (List.mem_cons_of_mem _ (List.mem_cons_self _ _))
  · exact scan_admits_exact_extensions.2.1 tree₀

/-- C9: whenever a refresh publishes a filename, that filename is
exactly `today_` followed by the cycle's date as `YYYY-MM-DD` followed
by `.jpg` (regardless of the selected source image's own extension),
and it is the published filename in the resulting state. -/
theorem published_name_format (imgDir assetDir : String) (env : RefreshEnv) (st : ServerState)
    (n : String)
    (hmem : Event.setPublished n ∈ (updateImageForToday imgDir assetDir env st).2) :
    n = "today_" ++ format2006_01_02 env.now ++ ".jpg" ∧
    (updateImageForToday imgDir assetDir env st).1.assetImageFilename = n := by
  cases hscan : env.scan with
  | error u => rw [updateImageForToday_scan_error _ _ _ _ hscan] at hmem; simp at hmem
  | ok imgs =>
    by_cases h0 : imgs.length = 0
    · rw [updateImageForToday_empty _ _ _ _ hscan h0] at hmem; simp at hmem
    · cases hsel : (NewImageMapper imgs).GetImageForDate env.now env.now with
      | error e =>
        rw [updateImageForToday_select_error _ _ _ _ hscan hsel] at hmem
        simp at hmem
      | ok sel =>
        cases hc : env.copyOk with
        | false =>
          rw [updateImageForToday_copy_fail _ _ _ _ hscan hsel hc] at hmem
          by_cases hprev : st.assetImageFilename ≠ ""
          · rw [if_pos hprev] at hmem; simp at hmem
          · rw [if_neg hprev] at hmem; simp at hmem
        | true =>
          have heq := updateImageForToday_copy_ok imgDir assetDir env st hscan hsel hc
          rw [heq] at hmem
          rw [heq]
          have hn : n = todayName env.now := by
            by_cases hprev : st.assetImageFilename ≠ ""
            · rw [if_pos hprev] at hmem; simpa using hmem
            · rw [if_neg hprev] at hmem; simpa using hmem
          exact ⟨hn, hn.symm⟩

theorem published_name_format_witness :
    "today_2024-01-01.jpg" = "today_" ++ format2006_01_02 envJpeg.now ++ ".jpg" ∧
    (updateImageForToday "images" "assets" envJpeg stPrev).1.assetImageFilename =
      "today_2024-01-01.jpg" :=
  published_name_format "images" "assets" envJpeg stPrev "today_2024-01-01.jpg" (by decide)

/-- C10: the scan recurses into subdirectories and records matching
files by base name only — a matching file of a directory entry's
subtree enters the enclosing pool under the same name — and the refresh
step resolves whatever name the mapper selects directly against the
top-level image directory when copying. -/
theorem subdir_images_pooled_by_base_name :
    (∀ (d : String) (sub es : List FSEntry) (n : String),
      FSEntry.dir d sub ∈ es → n ∈ getImageList sub → n ∈ getImageList es) ∧
    (∀ (imgDir assetDir : String) (env : RefreshEnv) (st : ServerState) (src dst : String),
      Event.copyFile src dst ∈ (updateImageForToday imgDir assetDir env st).2 →
      ∃ imgs sel, env.scan = .ok imgs ∧
        (NewImageMapper imgs).GetImageForDate env.now env.now = .ok sel ∧
        sel ∈ imgs ∧ src = joinPath imgDir sel) := by
  constructor
  · intro d sub es n hdir hmem
    obtain ⟨hf, hx⟩ := mem_getImageList.mp hmem
    exact mem_getImageList.mpr ⟨.nested hdir hf, hx⟩
  · intro imgDir assetDir env st src dst hmem
    cases hscan : env.scan with
    | error u => rw [updateImageForToday_scan_error _ _ _ _ hscan] at hmem; simp at hmem
    | ok imgs =>
      by_cases h0 : imgs.length = 0
      · rw [updateImageForToday_empty _ _ _ _ hscan h0] at hmem; simp at hmem
      · cases hsel : (NewImageMapper imgs).GetImageForDate env.now env.now with
        | error e =>
          rw [updateImageForToday_select_error _ _ _ _ hscan hsel] at hmem
          simp at hmem
        | ok sel =>
          refine ⟨imgs, sel, rfl, hsel, getImageForDate_ok_mem hsel, ?_⟩
          cases hc : env.copyOk with
          | true =>
            rw [updateImageForToday_copy_ok _ _ _ _ hscan hsel hc] at hmem
            by_cases hprev : st.assetImageFilename ≠ ""
            · rw [if_pos hprev] at hmem
              simp at hmem
              exact hmem.1
            · rw [if_neg hprev] at hmem
              simp at hmem
              exact hmem.1
          | false =>
            rw [updateImageForToday_copy_fail _ _ _ _ hscan hsel hc] at hmem
            by_cases hprev : st.assetImageFilename ≠ ""
            · rw [if_pos hprev] at hmem
              simp at hmem
              exact hmem.1
            · rw [if_neg hprev] at hmem
              simp at hmem
              exact hmem.1

theorem subdir_images_pooled_by_base_name_witness :
    ("c.jpeg" ∈ getImageList tree₀) ∧
    (∃ imgs sel, envCopyOk.scan = .ok imgs ∧
      (NewImageMapper imgs).GetImageForDate envCopyOk.now envCopyOk.now = .ok sel ∧
      sel ∈ imgs ∧ "images/a.jpg" = joinPath "images" sel) := by
  constructor
  · refine subdir_images_pooled_by_base_name.1 "sub" [.file "c.jpeg"] tree₀ "c.jpeg"
      (List.mem_cons_of_mem _ (List.mem_cons_self _ _)) ?_
    have h : extMatches "c.jpeg" = true := by decide
    simp [getImageList, collectImages, h]
  · exact subdir_images_pooled_by_base_name.2 "images" "assets" envCopyOk stPrev
      "images/a.jpg" "assets/today_2024-01-01.jpg" (by decide)
